import Mathlib

/-!
# Verification of `get_junos_outputs.py`

A shallow embedding, in Lean 4, of the core of the JunosOutputs repository
(`src/get_junos_outputs.py`): the batch executor `run_commands`, the archiver
`compress_directory`, and the delivery function `upload_with_curl`, together
with theorems settling the specification claims about them.

Python strings are modelled as `List Char`; machine floats used only for
durations are modelled as natural numbers (claims about times are structural,
not about rounding); external effects (the SSH transport, the `curl` process,
the filesystem, the wall clock) are modelled as explicit oracles passed in, and
all file/journal writes are returned as data.
-/

namespace JunosOutputs

/-- Coerce a Lean string literal to the `List Char` model of Python strings. -/
def s2l (s : String) : List Char := s.data

/-- Python's substring test `pat in s` (true iff `pat` occurs contiguously in
`s`; the empty pattern occurs in every string). -/
def containsSub (pat : List Char) : List Char → Bool
  | [] => pat.isPrefixOf ([] : List Char)
  | c :: rest => pat.isPrefixOf (c :: rest) || containsSub pat rest

/-- Split at the first occurrence of `sep`: `some (before, after)` when `sep`
occurs in `s`, `none` otherwise.  This definition follows the spec's words
("split the configured share URL at the first occurrence of the path segment
`/s/`; the left part is baseURL, the right part is shareToken") and is related
to the Python `str.split`-based code by the theorems below. -/
def breakOn1 (sep : List Char) : List Char → Option (List Char × List Char)
  | [] => none
  | c :: rest =>
    if sep ≠ [] ∧ sep.isPrefixOf (c :: rest) then
      some ([], (c :: rest).drop sep.length)
    else
      (breakOn1 sep rest).map (fun pq => (c :: pq.1, pq.2))

/-- Python's `s.split(sep)` for a non-empty separator: the pieces of `s`
between leftmost non-overlapping occurrences of `sep`.  (Python raises on an
empty separator; in that degenerate case this returns `[s]`.) -/
def splitOnL (sep : List Char) (s : List Char) : List (List Char) :=
  match s with
  | [] => [[]]
  | c :: rest =>
    if h : sep ≠ [] ∧ sep.isPrefixOf (c :: rest) then
      [] :: splitOnL sep ((c :: rest).drop sep.length)
    else
      match splitOnL sep rest with
      | [] => [[c]]
      | p :: ps => (c :: p) :: ps
termination_by s.length
decreasing_by
  · simp only [List.length_drop, List.length_cons]
    have hpos : 0 < sep.length := List.length_pos.mpr h.1
    omega
  · simp

/-- Python's `sep.join(pieces)`. -/
def joinSep (sep : List Char) : List (List Char) → List Char
  | [] => []
  | [p] => p
  | p :: ps => p ++ sep ++ joinSep sep ps

/-- Python's `s.replace(old, new)` (all leftmost non-overlapping occurrences
replaced), via the identity `s.replace(old, new) = new.join(s.split(old))`
which holds for the non-empty patterns it is applied to. -/
def replaceAll (pat rep s : List Char) : List Char :=
  joinSep rep (splitOnL pat s)

/-- Python's `os.path.basename` for POSIX paths: the part after the last
slash (the whole string when there is no slash). -/
def basenameL (p : List Char) : List Char :=
  ((p.reverse.takeWhile (fun c => !(c == '/'))).reverse)

theorem splitOnL_nil (sep : List Char) : splitOnL sep [] = [[]] := by
  rw [splitOnL.eq_def]

theorem splitOnL_cons_pos (sep : List Char) (c : Char) (rest : List Char)
    (h : sep ≠ [] ∧ sep.isPrefixOf (c :: rest) = true) :
    splitOnL sep (c :: rest) = [] :: splitOnL sep ((c :: rest).drop sep.length) := by
  rw [splitOnL.eq_def]
  exact dif_pos h

theorem splitOnL_cons_neg (sep : List Char) (c : Char) (rest : List Char)
    (h : ¬(sep ≠ [] ∧ sep.isPrefixOf (c :: rest) = true)) :
    splitOnL sep (c :: rest) =
      match splitOnL sep rest with
      | [] => [[c]]
      | p :: ps => (c :: p) :: ps := by
  rw [splitOnL.eq_def]
  exact dif_neg h

theorem splitOnL_ne_nil (sep s : List Char) : splitOnL sep s ≠ [] := by
  induction s using splitOnL.induct sep with
  | case1 => rw [splitOnL_nil]; simp
  | case2 c rest h _ => rw [splitOnL_cons_pos sep c rest h]; simp
  | case3 c rest h hrec _ => rw [splitOnL_cons_neg sep c rest h, hrec]; simp
  | case4 c rest h p ps hrec _ => rw [splitOnL_cons_neg sep c rest h, hrec]; simp

/-- The head piece produced by `splitOnL` is a prefix of the input. -/
theorem splitOnL_headD_isPre (sep s : List Char) :
    ((splitOnL sep s).headD []) <+: s := by
  induction s using splitOnL.induct sep with
  | case1 => rw [splitOnL_nil]; simp
  | case2 c rest h _ => rw [splitOnL_cons_pos sep c rest h]; simp
  | case3 c rest h hrec _ => exact absurd hrec (splitOnL_ne_nil sep rest)
  | case4 c rest h p ps hrec ih =>
    rw [splitOnL_cons_neg sep c rest h, hrec]
    rw [hrec] at ih
    simp only [List.headD_cons] at ih ⊢
    exact (List.prefix_cons_inj c).mpr ih

/-- If `sep` occurs nowhere in `s`, Python's split returns the whole string. -/
theorem splitOnL_of_breakOn1_none (sep s : List Char)
    (h : breakOn1 sep s = none) : splitOnL sep s = [s] := by
  induction s using splitOnL.induct sep with
  | case1 => rw [splitOnL.eq_def]
  | case2 c rest hc _ =>
    rw [breakOn1, if_pos hc] at h
    exact absurd h (by simp)
  | case3 c rest hc hrec ih =>
    rw [breakOn1, if_neg hc] at h
    have h' : breakOn1 sep rest = none := by
      match hb : breakOn1 sep rest with
      | none => rfl
      | some pq => rw [hb] at h; exact absurd h (by simp)
    rw [splitOnL_cons_neg sep c rest hc, hrec]
    rw [ih h'] at hrec
    exact absurd hrec (by simp)
  | case4 c rest hc p ps hrec ih =>
    rw [breakOn1, if_neg hc] at h
    have h' : breakOn1 sep rest = none := by
      match hb : breakOn1 sep rest with
      | none => rfl
      | some pq => rw [hb] at h; exact absurd h (by simp)
    rw [splitOnL_cons_neg sep c rest hc, hrec]
    rw [ih h'] at hrec
    rw [List.cons.injEq] at hrec
    rw [hrec.1, hrec.2]

/-- Splitting at the first occurrence peels off the first piece of Python's
split. -/
theorem splitOnL_of_breakOn1_some (sep s : List Char)
    (p q : List Char) (h : breakOn1 sep s = some (p, q)) :
    splitOnL sep s = p :: splitOnL sep q := by
  induction s using splitOnL.induct sep generalizing p q with
  | case1 => rw [breakOn1] at h; exact absurd h (by simp)
  | case2 c rest hc _ =>
    rw [breakOn1, if_pos hc] at h
    simp only [Option.some.injEq, Prod.mk.injEq] at h
    rw [splitOnL_cons_pos sep c rest hc, ← h.1, ← h.2]
  | case3 c rest hc hrec ih =>
    rw [breakOn1, if_neg hc] at h
    match hb : breakOn1 sep rest with
    | none => rw [hb] at h; exact absurd h (by simp)
    | some (p', q') =>
      rw [ih p' q' hb] at hrec
      exact absurd hrec (by simp)
  | case4 c rest hc p₀ ps hrec ih =>
    rw [breakOn1, if_neg hc] at h
    match hb : breakOn1 sep rest with
    | none => rw [hb] at h; exact absurd h (by simp)
    | some (p', q') =>
      rw [hb] at h
      simp only [Option.map_some', Option.some.injEq, Prod.mk.injEq] at h
      rw [splitOnL_cons_neg sep c rest hc, hrec]
      rw [ih p' q' hb] at hrec
      rw [List.cons.injEq] at hrec
      rw [← h.1, hrec.1, ← h.2, ← hrec.2]

theorem breakOn1_nil_sep (s : List Char) : breakOn1 ([] : List Char) s = none := by
  induction s with
  | nil => rfl
  | cons c rest ih => rw [breakOn1, if_neg (by simp), ih]; rfl

/-- `breakOn1` really splits at an occurrence of `sep`. -/
theorem breakOn1_decomp (sep s p q : List Char)
    (h : breakOn1 sep s = some (p, q)) : s = p ++ sep ++ q := by
  induction s generalizing p q with
  | nil => rw [breakOn1] at h; exact absurd h (by simp)
  | cons c rest ih =>
    rw [breakOn1] at h
    by_cases hc : sep ≠ [] ∧ sep.isPrefixOf (c :: rest) = true
    · rw [if_pos hc] at h
      simp only [Option.some.injEq, Prod.mk.injEq] at h
      obtain ⟨h1, h2⟩ := h
      subst h1
      subst h2
      obtain ⟨t, ht⟩ := List.isPrefixOf_iff_prefix.mp hc.2
      rw [List.nil_append, ← ht, List.drop_left]
    · rw [if_neg hc] at h
      match hb : breakOn1 sep rest with
      | none => rw [hb] at h; exact absurd h (by simp)
      | some (p', q') =>
        rw [hb] at h
        simp only [Option.map_some', Option.some.injEq, Prod.mk.injEq] at h
        obtain ⟨h1, h2⟩ := h
        subst h1
        subst h2
        rw [ih p' q' hb]
        simp

/-- `breakOn1` splits at the FIRST occurrence of `sep`: no decomposition of
`s` around `sep` has a shorter left part. -/
theorem breakOn1_minimal (sep s p q : List Char)
    (h : breakOn1 sep s = some (p, q)) :
    ∀ p' q', s = p' ++ sep ++ q' → p.length ≤ p'.length := by
  induction s generalizing p q with
  | nil => rw [breakOn1] at h; exact absurd h (by simp)
  | cons c rest ih =>
    intro p' q' hdec
    rw [breakOn1] at h
    by_cases hc : sep ≠ [] ∧ sep.isPrefixOf (c :: rest) = true
    · rw [if_pos hc] at h
      simp only [Option.some.injEq, Prod.mk.injEq] at h
      rw [← h.1]
      exact Nat.zero_le _
    · rw [if_neg hc] at h
      match hb : breakOn1 sep rest with
      | none => rw [hb] at h; exact absurd h (by simp)
      | some (p₀, q₀) =>
        rw [hb] at h
        simp only [Option.map_some', Option.some.injEq, Prod.mk.injEq] at h
        match p' with
        | [] =>
          exfalso
          apply hc
          have hsep : sep ≠ [] := by
            intro hnil
            rw [hnil, breakOn1_nil_sep] at hb
            exact absurd hb (by simp)
          refine ⟨hsep, ?_⟩
          rw [List.nil_append] at hdec
          exact List.isPrefixOf_iff_prefix.mpr ⟨q', hdec.symm⟩
        | d :: p'' =>
          have hd : c = d ∧ rest = p'' ++ sep ++ q' := by
            have := hdec
            simp only [List.cons_append, List.cons.injEq] at this
            exact this
          rw [← h.1]
          simp only [List.length_cons]
          exact Nat.succ_le_succ (ih p₀ q₀ hb p'' q' hd.2)

/-- `breakOn1` finds an occurrence iff the separator occurs as a substring. -/
theorem breakOn1_eq_none_iff (sep s : List Char) (hs : sep ≠ []) :
    breakOn1 sep s = none ↔ containsSub sep s = false := by
  induction s with
  | nil =>
    rw [breakOn1, containsSub]
    match sep, hs with
    | c :: tl, _ => simp [List.isPrefixOf]
  | cons c rest ih =>
    rw [breakOn1, containsSub]
    by_cases hc : sep.isPrefixOf (c :: rest) = true
    · rw [if_pos ⟨hs, hc⟩, hc]
      simp
    · rw [if_neg (by intro hcc; exact hc hcc.2)]
      have hc' : sep.isPrefixOf (c :: rest) = false := Bool.eq_false_iff.mpr hc
      rw [hc', Bool.false_or, Option.map_eq_none']
      exact ih

/-- A non-empty pattern does not occur in the empty string. -/
theorem containsSub_nil (pat : List Char) (hp : pat ≠ []) :
    containsSub pat [] = false := by
  rw [containsSub]
  match pat, hp with
  | c :: tl, _ => simp [List.isPrefixOf]

/-- A pattern that is a prefix of `A ++ B` either is a prefix of `A` alone or
reaches the first character of `B`. -/
theorem isPrefixOf_append_cases (pat A B : List Char)
    (h : pat.isPrefixOf (A ++ B) = true) :
    pat.isPrefixOf A = true ∨ ∃ c, B.head? = some c ∧ c ∈ pat := by
  induction A generalizing pat with
  | nil =>
    match pat with
    | [] => exact Or.inl rfl
    | p :: pt =>
      rw [List.nil_append] at h
      match B with
      | [] => exact absurd h (by simp [List.isPrefixOf])
      | b :: bt =>
        simp only [List.isPrefixOf, Bool.and_eq_true, beq_iff_eq] at h
        exact Or.inr ⟨b, rfl, by rw [h.1]; exact List.mem_cons_self _ _⟩
  | cons a at' ih =>
    match pat with
    | [] => exact Or.inl rfl
    | p :: pt =>
      simp only [List.cons_append, List.isPrefixOf, Bool.and_eq_true,
        beq_iff_eq] at h
      rcases ih pt h.2 with hl | ⟨c, hc1, hc2⟩
      · refine Or.inl ?_
        simp only [List.isPrefixOf, Bool.and_eq_true, beq_iff_eq]
        exact ⟨h.1, hl⟩
      · exact Or.inr ⟨c, hc1, List.mem_cons_of_mem _ hc2⟩

/-- No occurrence can straddle the boundary of `A ++ B` when the first
character of `B` is not a character of the pattern. -/
theorem containsSub_append_false (pat A B : List Char)
    (hA : containsSub pat A = false) (hB : containsSub pat B = false)
    (hhd : ∀ c, B.head? = some c → c ∉ pat) :
    containsSub pat (A ++ B) = false := by
  induction A with
  | nil => rw [List.nil_append]; exact hB
  | cons a at' ih =>
    rw [containsSub] at hA
    rw [Bool.or_eq_false_iff] at hA
    rw [List.cons_append, containsSub, Bool.or_eq_false_iff]
    refine ⟨?_, ih hA.2⟩
    rw [Bool.eq_false_iff]
    intro hpre
    rcases isPrefixOf_append_cases pat (a :: at') B hpre with hl | ⟨c, hc1, hc2⟩
    · rw [hl] at hA
      exact absurd hA.1 (by simp)
    · exact hhd c hc1 hc2

/-- Prepending characters that do not occur in the pattern does not create
occurrences. -/
theorem containsSub_append_left (pat C X : List Char) (hp : pat ≠ [])
    (hC : ∀ c ∈ C, c ∉ pat) :
    containsSub pat (C ++ X) = containsSub pat X := by
  induction C with
  | nil => rw [List.nil_append]
  | cons c ct ih =>
    rw [List.cons_append, containsSub]
    have hpre : pat.isPrefixOf (c :: (ct ++ X)) = false := by
      rw [Bool.eq_false_iff]
      intro hpre
      match pat, hp with
      | p :: pt, _ =>
        simp only [List.isPrefixOf, Bool.and_eq_true, beq_iff_eq] at hpre
        apply hC c (List.mem_cons_self _ _)
        rw [← hpre.1]
        exact List.mem_cons_self _ _
    rw [hpre, Bool.false_or]
    exact ih (fun d hd => hC d (List.mem_cons_of_mem _ hd))

/-- Joining pattern-free pieces with a separator made of characters foreign to
the pattern yields a pattern-free string. -/
theorem containsSub_joinSep (pat sep : List Char) (hp : pat ≠ [])
    (hs : sep ≠ []) (hsep : ∀ c ∈ sep, c ∉ pat) :
    ∀ ps, (∀ p ∈ ps, containsSub pat p = false) →
      containsSub pat (joinSep sep ps) = false := by
  intro ps
  induction ps with
  | nil => intro _; rw [joinSep]; exact containsSub_nil pat hp
  | cons p ps ih =>
    intro hfree
    match ps with
    | [] => exact hfree p (List.mem_cons_self _ _)
    | q :: ps' =>
      have hjoin : joinSep sep (p :: q :: ps') = p ++ sep ++ joinSep sep (q :: ps') := rfl
      rw [hjoin, List.append_assoc]
      refine containsSub_append_false pat p (sep ++ joinSep sep (q :: ps'))
        (hfree p (List.mem_cons_self _ _)) ?_ ?_
      · rw [containsSub_append_left pat sep _ hp hsep]
        exact ih (fun r hr => hfree r (List.mem_cons_of_mem _ hr))
      · intro c hc
        match sep, hs with
        | d :: st, _ =>
          rw [List.cons_append] at hc
          simp only [List.head?_cons, Option.some.injEq] at hc
          rw [← hc]
          exact hsep d (List.mem_cons_self _ _)

/-- Every piece produced by Python's split is free of the separator. -/
theorem splitOnL_pieces_free (sep s : List Char) (hs : sep ≠ []) :
    ∀ p ∈ splitOnL sep s, containsSub sep p = false := by
  induction s using splitOnL.induct sep with
  | case1 =>
    rw [splitOnL_nil]
    intro p hp
    rw [List.mem_singleton] at hp
    rw [hp]
    exact containsSub_nil sep hs
  | case2 c rest h ih =>
    rw [splitOnL_cons_pos sep c rest h]
    intro p hp
    rcases List.mem_cons.mp hp with h0 | h0
    · rw [h0]; exact containsSub_nil sep hs
    · exact ih p h0
  | case3 c rest h hrec _ => exact absurd hrec (splitOnL_ne_nil sep rest)
  | case4 c rest h p₀ ps hrec ih =>
    rw [splitOnL_cons_neg sep c rest h, hrec]
    intro p hp
    rcases List.mem_cons.mp hp with h0 | h0
    · rw [h0, containsSub]
      have hfree : containsSub sep p₀ = false := by
        apply ih
        rw [hrec]
        exact List.mem_cons_self _ _
      have hpre : sep.isPrefixOf (c :: p₀) = false := by
        rw [Bool.eq_false_iff]
        intro hpre
        apply h
        refine ⟨hs, ?_⟩
        have hp₀ : p₀ <+: rest := by
          have := splitOnL_headD_isPre sep rest
          rw [hrec, List.headD_cons] at this
          exact this
        exact List.isPrefixOf_iff_prefix.mpr
          (( List.isPrefixOf_iff_prefix.mp hpre).trans
            ((List.prefix_cons_inj c).mpr hp₀))
      rw [hpre, hfree]
      rfl
    · apply ih
      rw [hrec]
      exact List.mem_cons_of_mem _ h0

/-- Replacing every occurrence of a non-empty pattern by a non-empty
replacement containing no pattern character removes all occurrences. -/
theorem containsSub_replaceAll (pat rep s : List Char) (hp : pat ≠ [])
    (hr : rep ≠ []) (hd : ∀ c ∈ rep, c ∉ pat) :
    containsSub pat (replaceAll pat rep s) = false := by
  rw [replaceAll]
  exact containsSub_joinSep pat rep hp hr hd (splitOnL pat s)
    (splitOnL_pieces_free pat s hp)

/-! ## Batch executor: `run_commands` (src/get_junos_outputs.py, lines 215-361)

The SSH transport is an oracle.  `exec i cmd` is the result of
`subprocess.run(ssh_base_cmd + [cmd])` for the `i`-th command of the batch:
either the completed process (return code, stdout, stderr) or a raised
exception.  Durations come from the oracle as well, since `time.time()` is
external; the model charges time only to the external operations
(control-master setup, the environment probe, each remote execution, and the
control-master cleanup). -/

/-- Result of one `subprocess.run` call: completed process or raised
exception. -/
inductive ExecOutcome where
  | raised (msg : List Char)
  | completed (returncode : Int) (stdout stderr : List Char)
deriving DecidableEq

/-- The classification of one command's outcome, as recorded by the journal
lines of `run_commands` (success message / "(FAILED)" / "(ERROR)") and by the
boolean stored in `execution_times`. -/
inductive Outcome where
  | success
  | failure
  | transportError
deriving DecidableEq

/-- The external world seen by `run_commands`: the SSH control-master setup,
the environment probe, the per-command executions, and their durations. -/
structure Transport where
  controlOk : Bool
  setupDur : Nat
  probeRc : Int
  probeOut : List Char
  probeDur : Nat
  exec : Nat → List Char → ExecOutcome
  execDur : Nat → Nat
  cleanupDur : Nat

/-- Python's `os.path.join(output_dir, filename)` for the plain relative
filenames used as command identifiers. -/
def pathJoin (dir name : List Char) : List Char := dir ++ '/' :: name

/-- Shell-mode detection (lines 242-255): shell mode iff the probe command
exited 0 and its stdout contains a slash or a backslash. -/
def shellModeOf (T : Transport) : Bool :=
  T.probeRc == 0 && (T.probeOut.contains '/' || T.probeOut.contains '\\')

/-- Command rewriting for shell mode (lines 267-273): escape double quotes
and wrap in `cli -c "..."`. -/
def wrapCommand (shellMode : Bool) (command : List Char) : List Char :=
  if shellMode then
    s2l "cli -c \"" ++ replaceAll ['\"'] (s2l "\\\"") command ++ ['\"']
  else
    command

/-- What `run_commands` records for one command in `execution_times`,
together with the branch that produced it. -/
structure CmdRecord where
  id : List Char
  duration : Nat
  outcome : Outcome
deriving DecidableEq

/-- The boolean success flag stored in `execution_times[filename]`:
`True` exactly in the zero-exit branch (lines 313-334). -/
def CmdRecord.flag (r : CmdRecord) : Bool := r.outcome == Outcome.success

/-- One iteration of the command loop (lines 258-347): run the command via
the transport, classify the outcome, and emit the file writes performed by
that branch.  Returns the `execution_times` record and the `(path, content)`
writes, in program order. -/
def execCommand (T : Transport) (outputDir : List Char) (shellMode : Bool)
    (i : Nat) (idname command : List Char) :
    CmdRecord × List (List Char × List Char) :=
  let exec_command := wrapCommand shellMode command
  match T.exec i exec_command with
  | ExecOutcome.raised _ =>
      (⟨idname, T.execDur i, Outcome.transportError⟩, [])
  | ExecOutcome.completed rc out err =>
      let output_path := pathJoin outputDir idname
      if rc ≠ 0 then
        (⟨idname, T.execDur i, Outcome.failure⟩,
          (output_path ++ s2l ".err", err) ::
            (if out ≠ [] then [(output_path, out)] else []))
      else
        (⟨idname, T.execDur i, Outcome.success⟩,
          (output_path, out) ::
            (if err ≠ [] then [(output_path ++ s2l ".err", err)] else []))

/-- The whole command loop of `run_commands` over the ordered batch
(a Python dict preserves insertion order, so the batch is a list of
`(filename, command)` pairs). -/
def runCommandsAll (T : Transport) (cmds : List (List Char × List Char))
    (outputDir : List Char) : List (CmdRecord × List (List Char × List Char)) :=
  cmds.enum.map (fun p => execCommand T outputDir (shellModeOf T) p.1 p.2.1 p.2.2)

/-- The `execution_times` mapping returned by `run_commands`, in input
order. -/
def runCommandsRecords (T : Transport) (cmds : List (List Char × List Char))
    (outputDir : List Char) : List CmdRecord :=
  (runCommandsAll T cmds outputDir).map Prod.fst

/-- All files written by `run_commands`, in program order. -/
def runCommandsFiles (T : Transport) (cmds : List (List Char × List Char))
    (outputDir : List Char) : List (List Char × List Char) :=
  ((runCommandsAll T cmds outputDir).map Prod.snd).flatten

/-- Wall-clock time elapsed across the whole of `run_commands` in the model:
setup, probe, each command, and (when a control connection was established)
the control-master cleanup. -/
def runCommandsElapsed (T : Transport) (n : Nat) : Nat :=
  T.setupDur + T.probeDur + ((List.range n).map T.execDur).sum +
    (if T.controlOk then T.cleanupDur else 0)

theorem runCommandsRecords_length (T : Transport)
    (cmds : List (List Char × List Char)) (d : List Char) :
    (runCommandsRecords T cmds d).length = cmds.length := by
  rw [runCommandsRecords, runCommandsAll]
  simp

theorem execCommand_id (T : Transport) (d : List Char) (sm : Bool) (i : Nat)
    (idname command : List Char) :
    (execCommand T d sm i idname command).1.id = idname := by
  rw [execCommand]
  match T.exec i (wrapCommand sm command) with
  | ExecOutcome.raised m => rfl
  | ExecOutcome.completed rc out err =>
    by_cases hrc : rc ≠ 0
    · simp only [if_pos hrc]
    · simp only [if_neg hrc]

theorem execCommand_duration (T : Transport) (d : List Char) (sm : Bool)
    (i : Nat) (idname command : List Char) :
    (execCommand T d sm i idname command).1.duration = T.execDur i := by
  rw [execCommand]
  match T.exec i (wrapCommand sm command) with
  | ExecOutcome.raised m => rfl
  | ExecOutcome.completed rc out err =>
    by_cases hrc : rc ≠ 0
    · simp only [if_pos hrc]
    · simp only [if_neg hrc]

/-- The outcome stored for a command, as a function of the transport
result. -/
theorem execCommand_outcome (T : Transport) (d : List Char) (sm : Bool)
    (i : Nat) (idname command : List Char) :
    (execCommand T d sm i idname command).1.outcome =
      match T.exec i (wrapCommand sm command) with
      | ExecOutcome.raised _ => Outcome.transportError
      | ExecOutcome.completed rc _ _ =>
          if rc ≠ 0 then Outcome.failure else Outcome.success := by
  rw [execCommand]
  match T.exec i (wrapCommand sm command) with
  | ExecOutcome.raised m => rfl
  | ExecOutcome.completed rc out err =>
    by_cases hrc : rc ≠ 0
    · simp only [if_pos hrc]
    · simp only [if_neg hrc]

/-- The identifiers of the returned records are exactly the batch
identifiers, in input order. -/
theorem runCommandsRecords_ids (T : Transport)
    (cmds : List (List Char × List Char)) (d : List Char) :
    (runCommandsRecords T cmds d).map CmdRecord.id = cmds.map Prod.fst := by
  rw [runCommandsRecords, runCommandsAll]
  simp only [List.map_map]
  refine Eq.trans (List.map_congr_left
    (fun p _ => execCommand_id T d (shellModeOf T) p.1 p.2.1 p.2.2)) ?_
  have h2 : List.map (fun p : Nat × (List Char × List Char) => p.2.1) cmds.enum =
      List.map Prod.fst (List.map Prod.snd cmds.enum) := by
    rw [List.map_map]
    rfl
  rw [h2, List.enum_map_snd]

theorem runCommandsRecords_getElem? (T : Transport)
    (cmds : List (List Char × List Char)) (d : List Char) (i : Nat) :
    (runCommandsRecords T cmds d)[i]? =
      (cmds[i]?).map
        (fun pc => (execCommand T d (shellModeOf T) i pc.1 pc.2).1) := by
  rw [runCommandsRecords, runCommandsAll, List.map_map, List.getElem?_map,
    List.getElem?_enum]
  cases cmds[i]? <;> rfl

/-- True iff the oracle reports a completed process with exit status 0. -/
def execSucceeded : ExecOutcome → Bool
  | ExecOutcome.raised _ => false
  | ExecOutcome.completed rc _ _ => rc == 0

theorem execCommand_flag (T : Transport) (d : List Char) (sm : Bool) (i : Nat)
    (idname command : List Char) :
    (execCommand T d sm i idname command).1.flag =
      execSucceeded (T.exec i (wrapCommand sm command)) := by
  rw [execCommand, CmdRecord.flag]
  match T.exec i (wrapCommand sm command) with
  | ExecOutcome.raised m => rfl
  | ExecOutcome.completed rc out err =>
    by_cases hrc : rc ≠ 0
    · simp only [if_pos hrc, execSucceeded]
      rw [beq_eq_false_iff_ne.mpr hrc]
      rfl
    · simp only [if_neg hrc, execSucceeded]
      push_neg at hrc
      rw [beq_iff_eq.mpr hrc]
      rfl

/-- The count of success flags equals the number of commands whose transport
execution completed with exit status 0. -/
theorem runCommandsRecords_countP_success (T : Transport)
    (cmds : List (List Char × List Char)) (d : List Char) :
    (runCommandsRecords T cmds d).countP CmdRecord.flag =
      cmds.enum.countP
        (fun p => execSucceeded (T.exec p.1 (wrapCommand (shellModeOf T) p.2.2))) := by
  rw [runCommandsRecords, runCommandsAll, List.map_map, List.countP_map]
  apply List.countP_congr
  intro p _
  exact iff_of_eq (congrArg (fun b => b = true)
    (execCommand_flag T d (shellModeOf T) p.1 p.2.1 p.2.2))

/-- The per-command durations recorded are the oracle durations, in order. -/
theorem runCommandsRecords_durations (T : Transport)
    (cmds : List (List Char × List Char)) (d : List Char) :
    (runCommandsRecords T cmds d).map CmdRecord.duration =
      (List.range cmds.length).map T.execDur := by
  rw [runCommandsRecords, runCommandsAll]
  simp only [List.map_map]
  refine Eq.trans (List.map_congr_left
    (fun p _ => execCommand_duration T d (shellModeOf T) p.1 p.2.1 p.2.2)) ?_
  have h2 : List.map (fun p : Nat × (List Char × List Char) => T.execDur p.1)
      cmds.enum =
      List.map T.execDur (List.map Prod.fst cmds.enum) := by
    rw [List.map_map]
    rfl
  rw [h2, List.enum_map_fst]

/-! ## The batch phase of `main` (lines 622-639)

`main` takes the wall-clock time around the whole `run_commands` call,
counts the success flags of `execution_times`, and writes the completion and
timing messages to the journal. -/

/-- The journal line `f"\nCompleted {successful} of {len(commands)} commands
successfully."` (line 630). -/
def completionLine (x n : Nat) : List Char :=
  '\n' :: (s2l "Completed " ++ (toString x).data ++ s2l " of " ++
    (toString n).data ++ s2l " commands successfully.")

/-- The journal line `f"Total execution time: {total_time:.2f} seconds"`
(line 631); the two-decimal float rendering is abstracted to the decimal
rendering of the model's natural-number duration. -/
def timingLine (t : Nat) : List Char :=
  s2l "Total execution time: " ++ (toString t).data ++ s2l " seconds"

/-- The summary step of `main` (lines 622-639): the success count, the
wall-clock total execution time, and the journal entries written.  Returns
`(successful, total_time, journal)`. -/
def mainBatch (T : Transport) (cmds : List (List Char × List Char))
    (outputDir : List Char) : Nat × Nat × List (List Char) :=
  let recs := runCommandsRecords T cmds outputDir
  let successful := recs.countP CmdRecord.flag
  let total_time := runCommandsElapsed T cmds.length
  (successful, total_time, [completionLine successful cmds.length,
    timingLine total_time])

/-! ## Delivery: `upload_with_curl` (src/get_junos_outputs.py, lines 410-502)

The external `curl` process is an oracle mapping the argument list to a run
result.  The run result carries both the process exit code (all the code
inspects) and the HTTP status of the server's response (which the code never
reads, since `curl` is invoked without `--fail`). -/

/-- The URL separator `'/s/'` used by `upload_with_curl` (lines 417-419). -/
def sSep : List Char := s2l "/s/"

/-- The masking string `'********'` of line 458. -/
def mask8 : List Char := s2l "********"

/-- Line 417: `cloud_url = upload_url.split('/s/')[0]`. -/
def cloudUrlOf (url : List Char) : List Char := (splitOnL sSep url).headD []

/-- Line 419: `folder_token = upload_url.split('/s/')[1]`; `none` models the
`IndexError` raised when the URL has no `/s/`. -/
def folderTokenOf (url : List Char) : Option (List Char) :=
  (splitOnL sSep url)[1]?

/-- Line 433: `endpoint = f"{cloud_url}/public.php/webdav/{filename}"`. -/
def endpointOf (url filename : List Char) : List Char :=
  cloudUrlOf url ++ s2l "/public.php/webdav/" ++ filename

/-- Lines 439-455: the curl argument list. -/
def curlCmd (archive url pwd : List Char) (insecure : Bool)
    (tok : List Char) : List (List Char) :=
  [s2l "curl"] ++ (if insecure then [s2l "-k"] else []) ++
    [s2l "-u", tok ++ ':' :: pwd] ++
    [s2l "-H", s2l "X-Requested-With: XMLHttpRequest"] ++
    [s2l "-T", archive] ++
    [endpointOf url (basenameL archive)]

/-- Line 458: one argument of the masked command logged to the journal. -/
def maskArg (pwd arg : List Char) : List Char :=
  if pwd = [] ∨ containsSub pwd arg = false then arg
  else replaceAll pwd mask8 arg

/-- Line 458: `safe_cmd`, the space-joined masked argument list. -/
def safeCmd (pwd : List Char) (args : List (List Char)) : List Char :=
  joinSep [' '] (args.map (maskArg pwd))

/-- The result of one `curl` invocation: the subprocess exit code and
captured output, together with the HTTP status of the response the server
sent (not visible to the Python code). -/
structure CurlRun where
  exitCode : Int
  httpStatus : Nat
  stdout : List Char
  stderr : List Char

/-- `upload_with_curl(archive_path, upload_url, log_file, insecure)` (lines
410-502): returns the boolean result and the journal entries written, in
order.  The `none` branch models the `IndexError` of line 419 being caught by
the `except` of line 495. -/
def upload_with_curl (archive url pwd : List Char) (insecure : Bool)
    (run : List (List Char) → CurlRun) : Bool × List (List Char) :=
  match folderTokenOf url with
  | none =>
      (false, [s2l "Error using curl for upload: list index out of range"])
  | some tok =>
      let cmd := curlCmd archive url pwd insecure tok
      let safe := safeCmd pwd cmd
      let r := run cmd
      let head := [s2l "Uploading archive to Nextcloud...",
                   s2l "Cloud URL: " ++ cloudUrlOf url,
                   s2l "Folder Token: " ++ tok,
                   s2l "Running curl command: " ++ safe]
      if r.exitCode == 0 then
        (true, head ++ [s2l "Upload successful using curl!"])
      else
        (false, head ++
          [s2l "Upload failed using curl. Return code: " ++ (toString r.exitCode).data,
           s2l "stdout: " ++ r.stdout,
           s2l "stderr: " ++ r.stderr])

theorem cloudUrlOf_of_some (url p q : List Char)
    (h : breakOn1 sSep url = some (p, q)) : cloudUrlOf url = p := by
  rw [cloudUrlOf, splitOnL_of_breakOn1_some sSep url p q h, List.headD_cons]

theorem cloudUrlOf_of_none (url : List Char)
    (h : breakOn1 sSep url = none) : cloudUrlOf url = url := by
  rw [cloudUrlOf, splitOnL_of_breakOn1_none sSep url h, List.headD_cons]

theorem folderTokenOf_of_none (url : List Char)
    (h : breakOn1 sSep url = none) : folderTokenOf url = none := by
  rw [folderTokenOf, splitOnL_of_breakOn1_none sSep url h]
  rfl

theorem folderTokenOf_of_some_none (url p q : List Char)
    (h : breakOn1 sSep url = some (p, q)) (h2 : breakOn1 sSep q = none) :
    folderTokenOf url = some q := by
  rw [folderTokenOf, splitOnL_of_breakOn1_some sSep url p q h,
    splitOnL_of_breakOn1_none sSep q h2]
  rfl

theorem folderTokenOf_of_some_some (url p q t r : List Char)
    (h : breakOn1 sSep url = some (p, q)) (h2 : breakOn1 sSep q = some (t, r)) :
    folderTokenOf url = some t := by
  rw [folderTokenOf, splitOnL_of_breakOn1_some sSep url p q h,
    splitOnL_of_breakOn1_some sSep q t r h2]
  simp

/-- The value following the first occurrence of `flag` in an argument list:
how a reader recovers, from the logged invocation, which file / credentials a
`curl` call used. -/
def argAfter (flag : List Char) : List (List Char) → Option (List Char)
  | [] => none
  | a :: rest => if a == flag then rest.head? else argAfter flag rest

theorem authArg_ne (tok pwd l : List Char) (hl : ':' ∉ l) :
    tok ++ ':' :: pwd ≠ l := by
  intro h
  apply hl
  rw [← h]
  exact List.mem_append_right tok (List.mem_cons_self _ _)

theorem endpointOf_ne_k (u f : List Char) : endpointOf u f ≠ s2l "-k" := by
  intro h
  have hmem : '/' ∈ endpointOf u f := by
    rw [endpointOf]
    refine List.mem_append_left _ (List.mem_append_right _ ?_)
    decide
  rw [h] at hmem
  exact absurd hmem (by decide)

theorem argAfter_cons_ne (flag a : List Char) (rest : List (List Char))
    (h : (a == flag) = false) :
    argAfter flag (a :: rest) = argAfter flag rest := by
  have hu : argAfter flag (a :: rest) =
      if a == flag then rest.head? else argAfter flag rest := rfl
  rw [hu, h]
  simp

theorem argAfter_cons_eq (flag a : List Char) (rest : List (List Char))
    (h : (a == flag) = true) :
    argAfter flag (a :: rest) = rest.head? := by
  have hu : argAfter flag (a :: rest) =
      if a == flag then rest.head? else argAfter flag rest := rfl
  rw [hu, h]
  simp

theorem argAfter_T (archive url pwd : List Char) (insecure : Bool)
    (tok : List Char) :
    argAfter (s2l "-T") (curlCmd archive url pwd insecure tok) = some archive := by
  have hauth : ((tok ++ ':' :: pwd) == s2l "-T") = false :=
    beq_eq_false_iff_ne.mpr (authArg_ne tok pwd _ (by decide))
  cases insecure
  · show argAfter (s2l "-T")
      (s2l "curl" :: s2l "-u" :: (tok ++ ':' :: pwd) :: s2l "-H" ::
        s2l "X-Requested-With: XMLHttpRequest" :: s2l "-T" :: archive ::
        [endpointOf url (basenameL archive)]) = some archive
    rw [argAfter_cons_ne _ _ _ (by decide), argAfter_cons_ne _ _ _ (by decide),
      argAfter_cons_ne _ _ _ hauth, argAfter_cons_ne _ _ _ (by decide),
      argAfter_cons_ne _ _ _ (by decide), argAfter_cons_eq _ _ _ (by decide)]
    rfl
  · show argAfter (s2l "-T")
      (s2l "curl" :: s2l "-k" :: s2l "-u" :: (tok ++ ':' :: pwd) :: s2l "-H" ::
        s2l "X-Requested-With: XMLHttpRequest" :: s2l "-T" :: archive ::
        [endpointOf url (basenameL archive)]) = some archive
    rw [argAfter_cons_ne _ _ _ (by decide), argAfter_cons_ne _ _ _ (by decide),
      argAfter_cons_ne _ _ _ (by decide), argAfter_cons_ne _ _ _ hauth,
      argAfter_cons_ne _ _ _ (by decide), argAfter_cons_ne _ _ _ (by decide),
      argAfter_cons_eq _ _ _ (by decide)]
    rfl

theorem argAfter_u (archive url pwd : List Char) (insecure : Bool)
    (tok : List Char) :
    argAfter (s2l "-u") (curlCmd archive url pwd insecure tok) =
      some (tok ++ ':' :: pwd) := by
  cases insecure <;>
    simp [curlCmd, argAfter, s2l]

theorem curlCmd_getLast (archive url pwd : List Char) (insecure : Bool)
    (tok : List Char) :
    (curlCmd archive url pwd insecure tok).getLastD [] =
      endpointOf url (basenameL archive) := by
  cases insecure <;> rfl

theorem curlCmd_contains_k (archive url pwd : List Char) (insecure : Bool)
    (tok : List Char) (ha : archive ≠ s2l "-k") :
    (curlCmd archive url pwd insecure tok).contains (s2l "-k") = insecure := by
  have hauth : ((['-', 'k'] : List Char) == (tok ++ ':' :: pwd)) = false :=
    beq_eq_false_iff_ne.mpr (fun h => authArg_ne tok pwd _ (by decide) h.symm)
  have harch : ((['-', 'k'] : List Char) == archive) = false :=
    beq_eq_false_iff_ne.mpr (fun h => ha h.symm)
  have hend : ((['-', 'k'] : List Char) == endpointOf url (basenameL archive)) = false :=
    beq_eq_false_iff_ne.mpr
      (fun h => endpointOf_ne_k url (basenameL archive) h.symm)
  cases insecure <;>
    simp [curlCmd, List.contains, List.elem, hauth, harch, hend, s2l]

/-! ## Delivery orchestration with fallback (spec §4.4)

The source file's only upload mechanism is the command-line one,
`upload_with_curl`, invoked directly by `main` (lines 644-656); the primary
HTTP PUT mechanism and the primary-then-fallback orchestration described by
the spec are not present under `src/`.  They are modelled here from the
spec's words, while the secondary (command-line) invocation reuses the
argument list actually built by `upload_with_curl`. -/

/-- The two upload mechanisms of spec §4.4. -/
inductive Mechanism where
  | primaryPut
  | curlCli
deriving DecidableEq

/-- One attempted upload: mechanism, endpoint, archive file, basic-auth
`user:password` value, and the TLS-verification-disabled flag. -/
structure UploadAttempt where
  mech : Mechanism
  endpoint : List Char
  file : List Char
  authUserPass : List Char
  insecure : Bool
deriving DecidableEq

/-- The upload semantics of a command-line invocation, read off its argument
list: the final URL argument, the `-T` upload file, the `-u` credentials, and
the presence of `-k`. -/
def curlAttemptOfCmd (args : List (List Char)) : UploadAttempt :=
  { mech := Mechanism.curlCli
    endpoint := args.getLastD []
    file := (argAfter (s2l "-T") args).getD []
    authUserPass := (argAfter (s2l "-u") args).getD []
    insecure := args.contains (s2l "-k") }

/-- Modelled from the spec: the primary HTTP PUT mechanism of §4.4 (absent
from src/), an HTTP PUT of the archive to the endpoint derived from the share
URL, with basic auth `shareToken:credential` and TLS verification disabled
iff `insecure`. -/
def primaryTarget (archive url pwd : List Char) (insecure : Bool)
    (tok : List Char) : UploadAttempt :=
  { mech := Mechanism.primaryPut
    endpoint := endpointOf url (basenameL archive)
    file := archive
    authUserPass := tok ++ ':' :: pwd
    insecure := insecure }

/-- Modelled from the spec: the delivery orchestration of §4.4 (absent from
src/) — attempt the primary mechanism when available, and when it is
unavailable or fails, retry through the secondary command-line mechanism when
that is available, before declaring final failure.  Returns the final result
and the trace of attempts. -/
def deliverArchive (archive url pwd : List Char) (insecure : Bool)
    (primaryAvailable : Bool) (primaryRun : UploadAttempt → Bool)
    (secondaryAvailable : Bool) (run : List (List Char) → CurlRun) :
    Bool × List UploadAttempt :=
  match folderTokenOf url with
  | none => (false, [])
  | some tok =>
    let pa := primaryTarget archive url pwd insecure tok
    if primaryAvailable && primaryRun pa then (true, [pa])
    else
      let tried := if primaryAvailable then [pa] else []
      if secondaryAvailable then
        let cmd := curlCmd archive url pwd insecure tok
        let r := run cmd
        (r.exitCode == 0, tried ++ [curlAttemptOfCmd cmd])
      else (false, tried)

/-! ## Archiver: `compress_directory` (src/get_junos_outputs.py, lines 363-408)

A directory is modelled as the list of its files, each a pair of a relative
path (slash-separated, relative to the directory) and its byte content.  The
Python `tarfile` calls `tarfile.open(archive_path, "w:gz")` /
`tar.add(directory_path, arcname=dir_name)` are modelled by their documented
semantics: the archive receives one entry for the directory itself, named
`arcname`, and one entry per contained file, named `arcname + '/' + relative
path`, carrying the file's bytes (intermediate sub-directory entries are
elided — they carry no content). -/

/-- One entry of the tar archive. -/
structure TarEntry where
  name : List Char
  dirEntry : Bool
  content : List Char
deriving DecidableEq

/-- Model of `tar.add(directory_path, arcname=dir_name)` (line 381). -/
def tarAdd (arcname : List Char) (fs : List (List Char × List Char)) :
    List TarEntry :=
  ⟨arcname, true, []⟩ ::
    fs.map (fun pc => ⟨arcname ++ '/' :: pc.1, false, pc.2⟩)

/-- `compress_directory(directory_path, log_file)` (lines 363-400): the
archive path `f"{directory_path}.tar.gz"` and the archive contents, with the
internal root entry named `os.path.basename(directory_path)`. -/
def compress_directory (dir : List Char)
    (fs : List (List Char × List Char)) : List Char × List TarEntry :=
  (dir ++ s2l ".tar.gz", tarAdd (basenameL dir) fs)

/-- Extraction of the modelled archive: the files it reproduces, as
`(path, bytes)` pairs. -/
def extractTar (entries : List TarEntry) : List (List Char × List Char) :=
  entries.filterMap
    (fun e => if e.dirEntry then none else some (e.name, e.content))

/-- The first slash-separated component of an entry name. -/
def topComponent (p : List Char) : List Char :=
  p.takeWhile (fun c => !(c == '/'))

theorem slash_not_mem_basenameL (p : List Char) : '/' ∉ basenameL p := by
  rw [basenameL]
  intro h
  rw [List.mem_reverse] at h
  have hpred := List.mem_takeWhile_imp h
  simp at hpred

theorem takeWhile_eq_self_of_all {pred : Char → Bool} (l : List Char)
    (hl : ∀ c ∈ l, pred c = true) : l.takeWhile pred = l := by
  induction l with
  | nil => rfl
  | cons c rest ih =>
    rw [List.takeWhile_cons, hl c (List.mem_cons_self _ _)]
    rw [ih (fun d hd => hl d (List.mem_cons_of_mem _ hd))]
    simp

theorem takeWhile_append_stop {pred : Char → Bool} (A : List Char)
    (hA : ∀ c ∈ A, pred c = true) (b : Char) (hb : pred b = false)
    (B : List Char) : (A ++ b :: B).takeWhile pred = A := by
  induction A with
  | nil =>
    rw [List.nil_append, List.takeWhile_cons, hb]
    simp
  | cons c rest ih =>
    rw [List.cons_append, List.takeWhile_cons, hA c (List.mem_cons_self _ _)]
    rw [ih (fun d hd => hA d (List.mem_cons_of_mem _ hd))]
    simp

theorem topComponent_basename (dir : List Char) :
    topComponent (basenameL dir) = basenameL dir := by
  rw [topComponent]
  apply takeWhile_eq_self_of_all
  intro c hc
  match hcc : (c == '/') with
  | false => rfl
  | true =>
    rw [beq_iff_eq] at hcc
    rw [hcc] at hc
    exact absurd hc (slash_not_mem_basenameL dir)

theorem topComponent_under (dir rel : List Char) :
    topComponent (basenameL dir ++ '/' :: rel) = basenameL dir := by
  rw [topComponent]
  apply takeWhile_append_stop
  · intro c hc
    match hcc : (c == '/') with
    | false => rfl
    | true =>
      rw [beq_iff_eq] at hcc
      rw [hcc] at hc
      exact absurd hc (slash_not_mem_basenameL dir)
  · rfl

/-! ## Concrete fixtures used by witnesses and counterexamples -/

/-- A three-command batch: one succeeding, one failing, one raising. -/
def cmdsFix : List (List Char × List Char) :=
  [(s2l "a", s2l "echo hi"), (s2l "b", s2l "false"), (s2l "c", s2l "show x")]

/-- Output directory used by the fixtures. -/
def dirFix : List Char := s2l "/var/tmp/junos_outputs_r_20250101_000000"

/-- A transport where command 0 succeeds, command 1 exits 1, command 2
raises; CLI mode (probe exits non-zero). -/
def Tfix : Transport :=
  { controlOk := false
    setupDur := 0
    probeRc := 1
    probeOut := []
    probeDur := 0
    exec := fun i _ =>
      if i = 0 then ExecOutcome.completed 0 (s2l "hi\n") []
      else if i = 1 then ExecOutcome.completed 1 [] (s2l "err")
      else ExecOutcome.raised (s2l "boom")
    execDur := fun _ => 2
    cleanupDur := 0 }

/-- A one-command batch. -/
def cmds1 : List (List Char × List Char) := [(s2l "a", s2l "show x")]

/-- A transport with non-zero setup overhead: the command itself takes 2
units but setting up the control connection takes 5. -/
def Tslow : Transport :=
  { controlOk := false
    setupDur := 5
    probeRc := 1
    probeOut := []
    probeDur := 0
    exec := fun _ _ => ExecOutcome.completed 0 [] []
    execDur := fun _ => 2
    cleanupDur := 0 }

/-- A transport whose only command fails with exit 1 and empty stdout and
stderr. -/
def TfailEmpty : Transport :=
  { controlOk := false
    setupDur := 0
    probeRc := 1
    probeOut := []
    probeDur := 0
    exec := fun _ _ => ExecOutcome.completed 1 [] []
    execDur := fun _ => 1
    cleanupDur := 0 }

/-- A one-command batch whose command fails. -/
def cmdsB : List (List Char × List Char) := [(s2l "b", s2l "false")]

/-! ## Claims -/

theorem filter_eq_length_one {α : Type} [DecidableEq α] (l : List α) (a : α)
    (hnd : l.Nodup) (ha : a ∈ l) : (l.filter (fun x => x = a)).length = 1 := by
  induction l with
  | nil => exact absurd ha (by simp)
  | cons b rest ih =>
    rw [List.nodup_cons] at hnd
    rcases List.mem_cons.mp ha with h0 | h0
    · subst h0
      rw [List.filter_cons_of_pos (by simp)]
      have hnil : rest.filter (fun x => x = a) = [] := by
        rw [List.filter_eq_nil_iff]
        intro x hx
        simp only [decide_eq_true_eq]
        intro hxa
        exact hnd.1 (hxa ▸ hx)
      rw [hnil]
      rfl
    · rw [List.filter_cons_of_neg ?_]
      · exact ih hnd.2 h0
      · simp only [decide_eq_true_eq]
        intro hba
        exact hnd.1 (hba ▸ h0)

/-- C1: for every batch of N command specs supplied to `run_commands`, the
returned result map contains exactly one entry per command identifier, in the
input order, regardless of how many individual commands fail or raise
transport-level errors.  (The batch is a Python dict, so identifiers are
pairwise distinct: hypothesis `hnodup`.) -/
theorem run_commands_one_result_per_command (T : Transport)
    (cmds : List (List Char × List Char)) (d : List Char)
    (hnodup : (cmds.map Prod.fst).Nodup) :
    (runCommandsRecords T cmds d).map CmdRecord.id = cmds.map Prod.fst ∧
    ∀ s ∈ cmds.map Prod.fst,
      (((runCommandsRecords T cmds d).map CmdRecord.id).filter
        (fun x => x = s)).length = 1 := by
  refine ⟨runCommandsRecords_ids T cmds d, ?_⟩
  intro s hs
  rw [runCommandsRecords_ids T cmds d]
  exact filter_eq_length_one _ s hnodup hs

/-- Witness for C1 on the concrete fixture batch (success, failure, and
transport error all present). -/
theorem run_commands_one_result_per_command_witness :
    (cmdsFix.map Prod.fst).Nodup ∧
    (runCommandsRecords Tfix cmdsFix dirFix).map CmdRecord.id =
      cmdsFix.map Prod.fst ∧
    (((runCommandsRecords Tfix cmdsFix dirFix).map CmdRecord.id).filter
      (fun x => x = s2l "b")).length = 1 := by
  have h := run_commands_one_result_per_command Tfix cmdsFix dirFix (by decide)
  exact ⟨by decide, h.1, h.2 (s2l "b") (by decide)⟩

/-- C2: each command's outcome is classified success iff the remote exit
status is 0, failure iff the transport returned a non-zero status, and
transportError iff the transport call itself raised; no failure aborts the
batch — the record list keeps one entry per command. -/
theorem run_commands_outcome_classification (T : Transport)
    (cmds : List (List Char × List Char)) (d : List Char) (i : Nat)
    (h : i < cmds.length) :
    (runCommandsRecords T cmds d).length = cmds.length ∧
    ∃ r, (runCommandsRecords T cmds d)[i]? = some r ∧
      (r.outcome = Outcome.success ↔
        ∃ out err,
          T.exec i (wrapCommand (shellModeOf T) (cmds.get ⟨i, h⟩).2) =
            ExecOutcome.completed 0 out err) ∧
      (r.outcome = Outcome.failure ↔
        ∃ rc out err, rc ≠ 0 ∧
          T.exec i (wrapCommand (shellModeOf T) (cmds.get ⟨i, h⟩).2) =
            ExecOutcome.completed rc out err) ∧
      (r.outcome = Outcome.transportError ↔
        ∃ msg,
          T.exec i (wrapCommand (shellModeOf T) (cmds.get ⟨i, h⟩).2) =
            ExecOutcome.raised msg) := by
  refine ⟨runCommandsRecords_length T cmds d, ?_⟩
  have hidx : cmds[i]? = some (cmds.get ⟨i, h⟩) := by
    rw [List.getElem?_eq_getElem h]
    rfl
  refine ⟨(execCommand T d (shellModeOf T) i (cmds.get ⟨i, h⟩).1
    (cmds.get ⟨i, h⟩).2).1, ?_, ?_⟩
  · rw [runCommandsRecords_getElem?, hidx]
    rfl
  rcases hexec : T.exec i (wrapCommand (shellModeOf T) (cmds.get ⟨i, h⟩).2)
    with msg | ⟨rc, out, err⟩
  · have hout : (execCommand T d (shellModeOf T) i (cmds.get ⟨i, h⟩).1
        (cmds.get ⟨i, h⟩).2).1.outcome = Outcome.transportError := by
      rw [execCommand_outcome, hexec]
    refine ⟨?_, ?_, ?_⟩
    · constructor
      · intro heq
        rw [hout] at heq
        exact absurd heq (by decide)
      · rintro ⟨out, err, heq⟩
        exact ExecOutcome.noConfusion heq
    · constructor
      · intro heq
        rw [hout] at heq
        exact absurd heq (by decide)
      · rintro ⟨rc, out, err, _, heq⟩
        exact ExecOutcome.noConfusion heq
    · exact ⟨fun _ => ⟨msg, rfl⟩, fun _ => hout⟩
  · by_cases hrc : rc ≠ 0
    · have hout : (execCommand T d (shellModeOf T) i (cmds.get ⟨i, h⟩).1
          (cmds.get ⟨i, h⟩).2).1.outcome = Outcome.failure := by
        rw [execCommand_outcome, hexec]
        exact if_pos hrc
      refine ⟨?_, ?_, ?_⟩
      · constructor
        · intro heq
          rw [hout] at heq
          exact absurd heq (by decide)
        · rintro ⟨out', err', heq⟩
          injection heq with h1 h2 h3
          exact absurd h1 hrc
      · exact ⟨fun _ => ⟨rc, out, err, hrc, rfl⟩, fun _ => hout⟩
      · constructor
        · intro heq
          rw [hout] at heq
          exact absurd heq (by decide)
        · rintro ⟨msg, heq⟩
          exact ExecOutcome.noConfusion heq
    · push_neg at hrc
      subst hrc
      have hout : (execCommand T d (shellModeOf T) i (cmds.get ⟨i, h⟩).1
          (cmds.get ⟨i, h⟩).2).1.outcome = Outcome.success := by
        rw [execCommand_outcome, hexec]
        exact if_neg (by simp)
      refine ⟨?_, ?_, ?_⟩
      · exact ⟨fun _ => ⟨out, err, rfl⟩, fun _ => hout⟩
      · constructor
        · intro heq
          rw [hout] at heq
          exact absurd heq (by decide)
        · rintro ⟨rc', out', err', hne, heq⟩
          injection heq with h1 h2 h3
          exact absurd h1.symm hne
      · constructor
        · intro heq
          rw [hout] at heq
          exact absurd heq (by decide)
        · rintro ⟨msg, heq⟩
          exact ExecOutcome.noConfusion heq

/-- Witness for C2 on the fixture batch: command 1 fails with exit 1, and the
recorded outcome at index 1 is `failure`. -/
theorem run_commands_outcome_classification_witness :
    (runCommandsRecords Tfix cmdsFix dirFix).length = cmdsFix.length ∧
    ((runCommandsRecords Tfix cmdsFix dirFix)[1]?).map CmdRecord.outcome =
      some Outcome.failure := by
  obtain ⟨hlen, r, hr, _h1, h2, _h3⟩ :=
    run_commands_outcome_classification Tfix cmdsFix dirFix 1 (by decide)
  refine ⟨hlen, ?_⟩
  rw [hr]
  have hout : r.outcome = Outcome.failure :=
    h2.mpr ⟨1, [], s2l "err", by decide, by decide⟩
  rw [Option.map_some', hout]

/-- C8 counterexample: the reported total execution time of `main` is the
wall-clock span around `run_commands` (here 5 units of control-master setup
plus the 2-unit command), not the sum of the per-command durations (2). -/
theorem main_total_time_counterexample :
    ¬ ((mainBatch Tslow cmds1 dirFix).2.1 =
        ((runCommandsRecords Tslow cmds1 dirFix).map CmdRecord.duration).sum) := by
  decide

/-- C8 amended: after the last command, `successCount` equals the number of
commands whose remote execution completed with exit status 0, the journaled
summary line "Completed X of N commands successfully." reports it, and
`total_time` is the wall-clock span of `run_commands` — the sum of the
per-command durations PLUS the setup, probe and cleanup overheads — rather
than the bare sum of per-command durations. -/
theorem main_batch_summary (T : Transport)
    (cmds : List (List Char × List Char)) (d : List Char) :
    (mainBatch T cmds d).1 =
      cmds.enum.countP
        (fun p => execSucceeded (T.exec p.1 (wrapCommand (shellModeOf T) p.2.2))) ∧
    (mainBatch T cmds d).2.1 =
      ((runCommandsRecords T cmds d).map CmdRecord.duration).sum +
        (T.setupDur + T.probeDur + (if T.controlOk then T.cleanupDur else 0)) ∧
    completionLine (mainBatch T cmds d).1 cmds.length ∈ (mainBatch T cmds d).2.2 := by
  refine ⟨?_, ?_, ?_⟩
  · exact runCommandsRecords_countP_success T cmds d
  · show runCommandsElapsed T cmds.length = _
    rw [runCommandsRecords_durations, runCommandsElapsed]
    omega
  · exact List.mem_cons_self _ _

theorem execCommand_writes_subset (T : Transport)
    (cmds : List (List Char × List Char)) (d : List Char) (i : Nat)
    (h : i < cmds.length) :
    ∀ w ∈ (execCommand T d (shellModeOf T) i (cmds.get ⟨i, h⟩).1
        (cmds.get ⟨i, h⟩).2).2, w ∈ runCommandsFiles T cmds d := by
  intro w hw
  rw [runCommandsFiles, List.mem_flatten]
  refine ⟨(execCommand T d (shellModeOf T) i (cmds.get ⟨i, h⟩).1
    (cmds.get ⟨i, h⟩).2).2, ?_, hw⟩
  rw [List.mem_map]
  refine ⟨execCommand T d (shellModeOf T) i (cmds.get ⟨i, h⟩).1
    (cmds.get ⟨i, h⟩).2, ?_, rfl⟩
  have hget : (runCommandsAll T cmds d)[i]? =
      some (execCommand T d (shellModeOf T) i (cmds.get ⟨i, h⟩).1
        (cmds.get ⟨i, h⟩).2) := by
    rw [runCommandsAll, List.getElem?_map, List.getElem?_enum,
      List.getElem?_eq_getElem h]
    rfl
  exact List.getElem?_mem hget

theorem outputPath_ne_err (p : List Char) : p ≠ p ++ s2l ".err" := by
  intro hcontra
  have hlen := congrArg List.length hcontra
  rw [List.length_append] at hlen
  have h4 : (s2l ".err").length = 4 := rfl
  omega

/-- C9 amended: stdout goes to `<outputDir>/<id>` and stderr to
`<outputDir>/<id>.err`, but asymmetrically: a succeeding command always gets
a stdout file and an `.err` file only when stderr is non-empty, while a
failing command always gets an `.err` file (possibly empty) and a stdout file
only when stdout is non-empty; a command whose transport call raised gets no
files.  All these writes land in the output of the whole batch. -/
theorem run_commands_file_writes (T : Transport)
    (cmds : List (List Char × List Char)) (d : List Char) (i : Nat)
    (h : i < cmds.length) :
    (∀ w ∈ (execCommand T d (shellModeOf T) i (cmds.get ⟨i, h⟩).1
        (cmds.get ⟨i, h⟩).2).2, w ∈ runCommandsFiles T cmds d) ∧
    (∀ idn command (rc : Int) (out err : List Char),
      T.exec i (wrapCommand (shellModeOf T) command) =
          ExecOutcome.completed rc out err →
        (((pathJoin d idn, out) ∈
            (execCommand T d (shellModeOf T) i idn command).2) ↔
          (rc = 0 ∨ out ≠ [])) ∧
        (((pathJoin d idn ++ s2l ".err", err) ∈
            (execCommand T d (shellModeOf T) i idn command).2) ↔
          (rc ≠ 0 ∨ err ≠ []))) ∧
    (∀ idn command msg,
      T.exec i (wrapCommand (shellModeOf T) command) = ExecOutcome.raised msg →
        (execCommand T d (shellModeOf T) i idn command).2 = []) := by
  refine ⟨execCommand_writes_subset T cmds d i h, ?_, ?_⟩
  · intro idn command rc out err hexec
    have hne : pathJoin d idn ≠ pathJoin d idn ++ s2l ".err" :=
      outputPath_ne_err _
    by_cases hrc : rc ≠ 0
    · have hw : (execCommand T d (shellModeOf T) i idn command).2 =
          (pathJoin d idn ++ s2l ".err", err) ::
            (if out ≠ [] then [(pathJoin d idn, out)] else []) := by
        simp only [execCommand]
        rw [hexec]
        exact congrArg Prod.snd (if_pos hrc)
      rw [hw]
      refine ⟨⟨?_, ?_⟩, ⟨fun _ => Or.inl hrc, fun _ => List.mem_cons_self _ _⟩⟩
      · intro hmem
        rcases List.mem_cons.mp hmem with h0 | h0
        · exact absurd (congrArg Prod.fst h0) hne
        · by_cases hout : out ≠ []
          · exact Or.inr hout
          · rw [if_neg hout] at h0
            exact absurd h0 (by simp)
      · intro hcase
        rcases hcase with h0 | h0
        · exact absurd h0 hrc
        · rw [if_pos h0]
          exact List.mem_cons_of_mem _ (List.mem_singleton.mpr rfl)
    · push_neg at hrc
      subst hrc
      have hw : (execCommand T d (shellModeOf T) i idn command).2 =
          (pathJoin d idn, out) ::
            (if err ≠ [] then [(pathJoin d idn ++ s2l ".err", err)] else []) := by
        simp only [execCommand]
        rw [hexec]
        exact congrArg Prod.snd (if_neg (by simp))
      rw [hw]
      refine ⟨⟨fun _ => Or.inl rfl, fun _ => List.mem_cons_self _ _⟩, ⟨?_, ?_⟩⟩
      · intro hmem
        rcases List.mem_cons.mp hmem with h0 | h0
        · exact absurd ((congrArg Prod.fst h0).symm) hne
        · by_cases herr : err ≠ []
          · exact Or.inr herr
          · rw [if_neg herr] at h0
            exact absurd h0 (by simp)
      · intro hcase
        rcases hcase with h0 | h0
        · exact absurd rfl h0
        · rw [if_pos h0]
          exact List.mem_cons_of_mem _ (List.mem_singleton.mpr rfl)
  · intro idn command msg hexec
    simp only [execCommand]
    rw [hexec]

/-- C9 counterexample: a failing command (exit 1) with empty stdout and empty
stderr gets an (empty) `.err` file but no stdout file, contradicting
"stdout is written to `<outputDir>/<id>`, and `<id>.err` is written only if
stderr is non-empty ... for both succeeding and failing commands". -/
theorem run_commands_err_file_counterexample :
    ((pathJoin dirFix (s2l "b"), ([] : List Char)) ∉
        runCommandsFiles TfailEmpty cmdsB dirFix) ∧
    ((pathJoin dirFix (s2l "b") ++ s2l ".err", ([] : List Char)) ∈
        runCommandsFiles TfailEmpty cmdsB dirFix) := by
  decide

/-- Witness for the amended C9: on the fixture, command 0 succeeds with
stdout `hi\n`, and that stdout file shows up among the batch's writes. -/
theorem run_commands_file_writes_witness :
    0 < cmdsFix.length ∧
    (pathJoin dirFix (s2l "a"), s2l "hi\n") ∈
      runCommandsFiles Tfix cmdsFix dirFix := by
  obtain ⟨hsub, hbranch, _⟩ :=
    run_commands_file_writes Tfix cmdsFix dirFix 0 (by decide)
  refine ⟨by decide, ?_⟩
  apply hsub
  exact (hbranch (s2l "a") (s2l "echo hi") 0 (s2l "hi\n") []
    (by decide)).1.mpr (Or.inl rfl)

/-- C7: `Compress(dir)` produces an archive named `<dir>.tar.gz`; every entry
lives under the single top-level name `basename(dir)`; and extracting the
archive reproduces every file present in the directory at compression time,
under that root, with identical byte content. -/
theorem compress_directory_roundtrip (dir : List Char)
    (fs : List (List Char × List Char)) :
    (compress_directory dir fs).1 = dir ++ s2l ".tar.gz" ∧
    ((compress_directory dir fs).2.all
      (fun e => topComponent e.name == basenameL dir)) = true ∧
    extractTar (compress_directory dir fs).2 =
      fs.map (fun pc => (basenameL dir ++ '/' :: pc.1, pc.2)) := by
  refine ⟨rfl, ?_, ?_⟩
  · rw [List.all_eq_true]
    intro e he
    rw [compress_directory, tarAdd] at he
    rcases List.mem_cons.mp he with h0 | h0
    · rw [h0, beq_iff_eq]
      exact topComponent_basename dir
    · rw [List.mem_map] at h0
      obtain ⟨pc, _, hpc⟩ := h0
      rw [← hpc, beq_iff_eq]
      exact topComponent_under dir pc.1
  · rw [compress_directory, tarAdd, extractTar, List.filterMap_cons]
    induction fs with
    | nil => rfl
    | cons pc rest ih =>
      rw [List.map_cons, List.filterMap_cons, List.map_cons]
      exact congrArg _ ih

/-- C10: for every share URL not containing `/s/`, `upload_with_curl` returns
failure (False) without raising: the IndexError from
`upload_url.split('/s/')[1]` is caught by the function's `except`, journaled,
and converted into the `False` return value. -/
theorem upload_malformed_url_returns_false (archive url pwd : List Char)
    (insecure : Bool) (run : List (List Char) → CurlRun)
    (h : containsSub sSep url = false) :
    (upload_with_curl archive url pwd insecure run).1 = false ∧
    s2l "Error using curl for upload: list index out of range" ∈
      (upload_with_curl archive url pwd insecure run).2 := by
  have hb : breakOn1 sSep url = none :=
    (breakOn1_eq_none_iff sSep url (by decide)).mpr h
  have htok : folderTokenOf url = none := folderTokenOf_of_none url hb
  rw [upload_with_curl, htok]
  exact ⟨rfl, List.mem_singleton.mpr rfl⟩

/-- Witness for C10 at a URL with no `/s/` segment. -/
theorem upload_malformed_url_returns_false_witness :
    containsSub sSep (s2l "https://cloud.example.com/TOKEN123") = false ∧
    (upload_with_curl (s2l "/var/tmp/o.tar.gz")
      (s2l "https://cloud.example.com/TOKEN123") (s2l "pw") false
      (fun _ => ⟨0, 201, [], []⟩)).1 = false := by
  refine ⟨by decide, ?_⟩
  exact (upload_malformed_url_returns_false (s2l "/var/tmp/o.tar.gz")
    (s2l "https://cloud.example.com/TOKEN123") (s2l "pw") false
    (fun _ => ⟨0, 201, [], []⟩) (by decide)).1

/-- C4: `upload_with_curl` decides success solely from the curl process exit
code (line 475), never from the HTTP response status — curl is invoked
without `--fail`, so a completed transfer whose HTTP response was 404 still
has exit code 0 and the upload is reported successful, where the claim
requires any status outside {200, 201, 204} to be reported as failure. -/
theorem upload_success_ignores_http_status :
    (upload_with_curl (s2l "/var/tmp/o.tar.gz")
      (s2l "https://cloud.example.com/s/TOKEN123") (s2l "pw") false
      (fun _ => ⟨0, 404, [], []⟩)).1 = true := by
  have htok : folderTokenOf (s2l "https://cloud.example.com/s/TOKEN123") =
      some (s2l "TOKEN123") :=
    folderTokenOf_of_some_none _ (s2l "https://cloud.example.com")
      (s2l "TOKEN123") (by decide) (by decide)
  rw [upload_with_curl, htok]
  rfl

/-- C5 counterexample: for a share URL in which `/s/` occurs twice, the code's
`split('/s/')[1]` yields only the segment between the first and second
occurrences (`"a"`), not the whole right part after the first occurrence
(`"a/s/b"`) that the claim prescribes. -/
theorem share_token_counterexample :
    folderTokenOf (s2l "https://h/s/a/s/b") = some (s2l "a") ∧
    (breakOn1 sSep (s2l "https://h/s/a/s/b")).map Prod.snd =
      some (s2l "a/s/b") ∧
    s2l "a" ≠ s2l "a/s/b" := by
  refine ⟨?_, by decide, by decide⟩
  exact folderTokenOf_of_some_some _ (s2l "https://h") (s2l "a/s/b")
    (s2l "a") (s2l "b") (by decide) (by decide)

/-- C5 amended: `baseURL` is the part of the share URL strictly before the
FIRST occurrence of `/s/` (witnessed by the decomposition and minimality
conjuncts), the `shareToken` is the segment strictly between that occurrence
and the next occurrence of `/s/` (the whole remainder when `/s/` occurs only
once), and the upload endpoint is `baseURL ++ "/public.php/webdav/" ++
filename`. -/
theorem share_url_derivation (url file base rest : List Char)
    (h : breakOn1 sSep url = some (base, rest)) :
    url = base ++ sSep ++ rest ∧
    (∀ p' q', url = p' ++ sSep ++ q' → base.length ≤ p'.length) ∧
    cloudUrlOf url = base ∧
    folderTokenOf url =
      some (match breakOn1 sSep rest with
            | none => rest
            | some tr => tr.1) ∧
    endpointOf url file = base ++ s2l "/public.php/webdav/" ++ file := by
  refine ⟨breakOn1_decomp sSep url base rest h,
    breakOn1_minimal sSep url base rest h,
    cloudUrlOf_of_some url base rest h, ?_, ?_⟩
  · match hb : breakOn1 sSep rest with
    | none => exact folderTokenOf_of_some_none url base rest h hb
    | some (t, r) => exact folderTokenOf_of_some_some url base rest t r h hb
  · rw [endpointOf, cloudUrlOf_of_some url base rest h]

/-- Witness for the amended C5 at the claim's own example: share URL
`https://cloud.example.com/s/TOKEN123` and archive `outputs.tar.gz`. -/
theorem share_url_derivation_witness :
    breakOn1 sSep (s2l "https://cloud.example.com/s/TOKEN123") =
      some (s2l "https://cloud.example.com", s2l "TOKEN123") ∧
    cloudUrlOf (s2l "https://cloud.example.com/s/TOKEN123") =
      s2l "https://cloud.example.com" ∧
    folderTokenOf (s2l "https://cloud.example.com/s/TOKEN123") =
      some (s2l "TOKEN123") ∧
    endpointOf (s2l "https://cloud.example.com/s/TOKEN123")
        (s2l "outputs.tar.gz") =
      s2l "https://cloud.example.com/public.php/webdav/outputs.tar.gz" := by
  have h := share_url_derivation (s2l "https://cloud.example.com/s/TOKEN123")
    (s2l "outputs.tar.gz") (s2l "https://cloud.example.com")
    (s2l "TOKEN123") (by decide)
  refine ⟨by decide, h.2.2.1, ?_, ?_⟩
  · rw [h.2.2.2.1]
    decide
  · rw [h.2.2.2.2]
    decide

/-- C6 counterexample: with the non-empty credential `**`, the journal entry
recording the transfer invocation (entry 3, `"Running curl command: ..."`)
still contains the literal credential: the masked `-u` value is
`T:********`, and `**` occurs inside the mask itself. -/
theorem credential_mask_counterexample :
    containsSub (s2l "**")
      (((upload_with_curl (s2l "/tmp/o.tar.gz") (s2l "https://h/s/T")
          (s2l "**") false (fun _ => ⟨0, 201, [], []⟩)).2).getD 3 []) = true := by
  have htok : folderTokenOf (s2l "https://h/s/T") = some (s2l "T") :=
    folderTokenOf_of_some_none _ (s2l "https://h") (s2l "T")
      (by decide) (by decide)
  have hcu : cloudUrlOf (s2l "https://h/s/T") = s2l "https://h" :=
    cloudUrlOf_of_some _ (s2l "https://h") (s2l "T") (by decide)
  have hrepl : replaceAll (s2l "**") mask8 (s2l "T:**") = s2l "T:********" := by
    rw [replaceAll,
      splitOnL_of_breakOn1_some (s2l "**") (s2l "T:**") (s2l "T:") []
        (by decide),
      splitOnL_nil]
    decide
  have hargs : curlCmd (s2l "/tmp/o.tar.gz") (s2l "https://h/s/T")
      (s2l "**") false (s2l "T") =
      [s2l "curl", s2l "-u", s2l "T:**", s2l "-H",
       s2l "X-Requested-With: XMLHttpRequest", s2l "-T", s2l "/tmp/o.tar.gz",
       s2l "https://h/public.php/webdav/o.tar.gz"] := by
    rw [curlCmd, endpointOf, hcu]
    decide
  have hsafe : safeCmd (s2l "**")
      (curlCmd (s2l "/tmp/o.tar.gz") (s2l "https://h/s/T") (s2l "**") false
        (s2l "T")) =
      s2l "curl -u T:******** -H X-Requested-With: XMLHttpRequest -T /tmp/o.tar.gz https://h/public.php/webdav/o.tar.gz" := by
    rw [safeCmd, hargs, List.map_cons, List.map_cons, List.map_cons,
      List.map_cons, List.map_cons, List.map_cons, List.map_cons,
      List.map_cons, List.map_nil]
    rw [(by decide : maskArg (s2l "**") (s2l "curl") = s2l "curl")]
    rw [(by decide : maskArg (s2l "**") (s2l "-u") = s2l "-u")]
    rw [(by decide : maskArg (s2l "**") (s2l "-H") = s2l "-H")]
    rw [(by decide : maskArg (s2l "**")
      (s2l "X-Requested-With: XMLHttpRequest") =
      s2l "X-Requested-With: XMLHttpRequest")]
    rw [(by decide : maskArg (s2l "**") (s2l "-T") = s2l "-T")]
    rw [(by decide : maskArg (s2l "**") (s2l "/tmp/o.tar.gz") =
      s2l "/tmp/o.tar.gz")]
    rw [(by decide : maskArg (s2l "**")
      (s2l "https://h/public.php/webdav/o.tar.gz") =
      s2l "https://h/public.php/webdav/o.tar.gz")]
    have hmask : maskArg (s2l "**") (s2l "T:**") = s2l "T:********" := by
      rw [maskArg, if_neg (by decide)]
      exact hrepl
    rw [hmask]
    decide
  rw [upload_with_curl, htok]
  simp only []
  rw [if_pos (by decide : ((⟨0, 201, [], []⟩ : CurlRun).exitCode == 0) = true)]
  show containsSub (s2l "**")
    (s2l "Running curl command: " ++ safeCmd (s2l "**")
      (curlCmd (s2l "/tmp/o.tar.gz") (s2l "https://h/s/T") (s2l "**") false
        (s2l "T"))) = true
  rw [hsafe]
  decide

/-- C6 amended: provided the credential is non-empty and contains neither the
mask character `*` nor a space (a credential made of `*`s survives inside the
mask `********`, and one containing a space can span two arguments of the
space-joined logged text), the masked command text `safe_cmd` logged by
`upload_with_curl` contains no occurrence of the credential — for every
argument list, not just the ones curl is invoked with. -/
theorem credential_masked_in_logged_command (pwd : List Char)
    (args : List (List Char)) (h1 : pwd ≠ []) (h2 : '*' ∉ pwd)
    (h3 : ' ' ∉ pwd) :
    containsSub pwd (safeCmd pwd args) = false := by
  rw [safeCmd]
  refine containsSub_joinSep pwd [' '] h1 (by simp) ?_ _ ?_
  · intro c hc
    rw [List.mem_singleton] at hc
    rw [hc]
    exact h3
  · intro p hp
    rw [List.mem_map] at hp
    obtain ⟨arg, _, harg⟩ := hp
    rw [← harg, maskArg]
    by_cases hcond : pwd = [] ∨ containsSub pwd arg = false
    · rw [if_pos hcond]
      rcases hcond with h0 | h0
      · exact absurd h0 h1
      · exact h0
    · rw [if_neg hcond]
      refine containsSub_replaceAll pwd mask8 arg h1 (by decide) ?_
      intro c hcmem
      have hc : c = '*' := by
        have hall : ∀ c ∈ mask8, c = '*' := by decide
        exact hall c hcmem
      rw [hc]
      exact h2

/-- Witness for the amended C6: the credential `pw` does not occur in the
masked logged command for a realistic invocation. -/
theorem credential_masked_in_logged_command_witness :
    s2l "pw" ≠ [] ∧ '*' ∉ s2l "pw" ∧ ' ' ∉ s2l "pw" ∧
    containsSub (s2l "pw")
      (safeCmd (s2l "pw")
        (curlCmd (s2l "/tmp/o.tar.gz") (s2l "https://h/s/T") (s2l "pw") true
          (s2l "T"))) = false := by
  exact ⟨by decide, by decide, by decide,
    credential_masked_in_logged_command (s2l "pw") _ (by decide) (by decide)
      (by decide)⟩

/-- C3: whenever the primary upload mechanism is unavailable or fails and the
secondary command-line mechanism is available, the delivery engine invokes
the secondary mechanism — and the invocation it issues carries the same
endpoint, the same archive file, the same basic-auth `token:credential`
value, and the same insecure flag as the primary attempt, before final
failure is declared.  (The orchestration and the primary mechanism are
modelled from the spec; the secondary invocation's semantics are read off the
argument list built by `upload_with_curl`.) -/
theorem delivery_fallback_same_target (archive url pwd tok : List Char)
    (insecure : Bool) (primaryAvailable : Bool)
    (primaryRun : UploadAttempt → Bool) (run : List (List Char) → CurlRun)
    (htok : folderTokenOf url = some tok)
    (hfail : ¬(primaryAvailable = true ∧
      primaryRun (primaryTarget archive url pwd insecure tok) = true))
    (hk : archive ≠ s2l "-k") :
    ∃ A ∈ (deliverArchive archive url pwd insecure primaryAvailable
        primaryRun true run).2,
      A.mech = Mechanism.curlCli ∧
      A.endpoint = (primaryTarget archive url pwd insecure tok).endpoint ∧
      A.file = (primaryTarget archive url pwd insecure tok).file ∧
      A.authUserPass = (primaryTarget archive url pwd insecure tok).authUserPass ∧
      A.insecure = (primaryTarget archive url pwd insecure tok).insecure := by
  have hcond : ¬((primaryAvailable &&
      primaryRun (primaryTarget archive url pwd insecure tok)) = true) := by
    intro hc
    rw [Bool.and_eq_true] at hc
    exact hfail hc
  rw [deliverArchive, htok]
  simp only []
  rw [if_neg hcond, if_pos trivial]
  refine ⟨curlAttemptOfCmd (curlCmd archive url pwd insecure tok),
    List.mem_append_right _ (List.mem_singleton.mpr rfl), rfl, ?_, ?_, ?_, ?_⟩
  · show (curlCmd archive url pwd insecure tok).getLastD [] = _
    rw [curlCmd_getLast]
    rfl
  · show (argAfter (s2l "-T") (curlCmd archive url pwd insecure tok)).getD [] = _
    rw [argAfter_T]
    rfl
  · show (argAfter (s2l "-u") (curlCmd archive url pwd insecure tok)).getD [] = _
    rw [argAfter_u]
    rfl
  · show (curlCmd archive url pwd insecure tok).contains (s2l "-k") = _
    rw [curlCmd_contains_k archive url pwd insecure tok hk]
    rfl

/-- Witness for C3: with the primary mechanism present but failing, the
secondary attempt carries the primary target's endpoint, file, auth and
insecure flag. -/
theorem delivery_fallback_same_target_witness :
    folderTokenOf (s2l "https://cloud.example.com/s/TOKEN123") =
      some (s2l "TOKEN123") ∧
    (s2l "/var/tmp/o.tar.gz" ≠ s2l "-k") ∧
    ∃ A ∈ (deliverArchive (s2l "/var/tmp/o.tar.gz")
        (s2l "https://cloud.example.com/s/TOKEN123") (s2l "pw") false
        true (fun _ => false) true (fun _ => ⟨0, 201, [], []⟩)).2,
      A.mech = Mechanism.curlCli ∧
      A.endpoint = (primaryTarget (s2l "/var/tmp/o.tar.gz")
        (s2l "https://cloud.example.com/s/TOKEN123") (s2l "pw") false
        (s2l "TOKEN123")).endpoint ∧
      A.file = (primaryTarget (s2l "/var/tmp/o.tar.gz")
        (s2l "https://cloud.example.com/s/TOKEN123") (s2l "pw") false
        (s2l "TOKEN123")).file ∧
      A.authUserPass = (primaryTarget (s2l "/var/tmp/o.tar.gz")
        (s2l "https://cloud.example.com/s/TOKEN123") (s2l "pw") false
        (s2l "TOKEN123")).authUserPass ∧
      A.insecure = (primaryTarget (s2l "/var/tmp/o.tar.gz")
        (s2l "https://cloud.example.com/s/TOKEN123") (s2l "pw") false
        (s2l "TOKEN123")).insecure := by
  have htok : folderTokenOf (s2l "https://cloud.example.com/s/TOKEN123") =
      some (s2l "TOKEN123") :=
    folderTokenOf_of_some_none _ (s2l "https://cloud.example.com")
      (s2l "TOKEN123") (by decide) (by decide)
  refine ⟨htok, by decide, ?_⟩
  exact delivery_fallback_same_target (s2l "/var/tmp/o.tar.gz")
    (s2l "https://cloud.example.com/s/TOKEN123") (s2l "pw") (s2l "TOKEN123")
    false true (fun _ => false) (fun _ => ⟨0, 201, [], []⟩) htok
    (by simp) (by decide)

end JunosOutputs
